import Mathlib

/-!
Verification of the IPPO training-loop core of the JaxMARL walkthrough
(file `JaxMARL_Walkthrough.ipynb`): the Batch Adapter (`batchify` /
`unbatchify`), the Advantage Estimator (`_calculate_gae`), the Policy
Updater (`_update_epoch` with its shuffle/minibatch pipeline and
`_loss_fn`), and the Training Orchestrator (`train`).

Arrays of floats are modelled as lists of rationals (`List ℚ`); jnp
operations that broadcast elementwise become `List.zipWith` / pointwise
functions; `jax.lax.scan` becomes structural recursion carrying the scan
state; fallible numpy operations (dict `KeyError`, `reshape` shape
mismatch, `stack` shape mismatch, out-of-range indexing) return `Option`;
the fatal `assert` in `_update_epoch` returns `Except String`.
External collaborators (environment, neural network, optimizer, PRNG)
are passed in as pure function parameters, mirroring §6 of the design.
-/

namespace JaxMarl

/-- One transition of the trajectory, as recorded by `_env_step`
(`class Transition(NamedTuple)` in the source), viewed at a single
actor slot: the jnp arrays hold one scalar per actor slot and every
operation applied to them downstream broadcasts pointwise, so the
per-slot view carries scalar fields. -/
structure Transition where
  done : ℚ
  action : ℤ
  value : ℚ
  reward : ℚ
  log_prob : ℚ
  obs : List ℚ
deriving DecidableEq

/-- Body of the reverse scan in `_calculate_gae` (`_get_advantages`):
carry is the pair `(gae, next_value)`; given one transition it computes
`delta = reward + gamma * next_value * (1 - done) - value` and the new
running advantage, returning the new carry `(gae, value)` and emitting
the advantage. -/
def get_advantages (gamma gae_lambda : ℚ) (c : ℚ × ℚ) (t : Transition) :
    (ℚ × ℚ) × ℚ :=
  let gae := c.1
  let next_value := c.2
  let delta := t.reward + gamma * next_value * (1 - t.done) - t.value
  let gae' := delta + gamma * gae_lambda * (1 - t.done) * gae
  ((gae', t.value), gae')

/-- Reverse scan, modelling `jax.lax.scan (f, init, xs, reverse=True)`:
the carry flows from the last element of the list to the first, and the
emitted outputs are returned in the original index order. -/
def scanRev (f : σ → Transition → σ × ℚ) (c : σ) : List Transition → σ × List ℚ
  | [] => (c, [])
  | t :: ts =>
    let r := scanRev f c ts
    let s := f r.1 t
    (s.1, s.2 :: r.2)

/-- The Advantage Estimator `_calculate_gae`: runs the reverse scan with
initial carry `(0, last_val)` over the trajectory and returns
`(advantages, advantages + traj_batch.value)`. -/
def calculate_gae (gamma gae_lambda : ℚ) (traj_batch : List Transition)
    (last_val : ℚ) : List ℚ × List ℚ :=
  let advantages := (scanRev (get_advantages gamma gae_lambda) (0, last_val) traj_batch).2
  (advantages, List.zipWith (fun a v => a + v) advantages (traj_batch.map (·.value)))

/-- Modelled from the spec: the backward recursion of §4.3 stated as a
direct recursion over the trajectory, `advantage_t = delta_t +
gamma * lambda * (1 - done_t) * advantage_(t+1)` with
`delta_t = reward_t + gamma * next_value_t * (1 - done_t) - value_t`,
`advantage_H = 0`, `next_value_(H-1) = last_val` and
`next_value_t = value_(t+1)` otherwise.  Used only as the spec side of
the refinement theorem for `calculate_gae`. -/
def gae_spec (gamma gae_lambda last_val : ℚ) : List Transition → List ℚ
  | [] => []
  | t :: ts =>
    let rest := gae_spec gamma gae_lambda last_val ts
    let next_value := match ts with
      | [] => last_val
      | t' :: _ => t'.value
    let next_adv := rest.headD 0
    let delta := t.reward + gamma * next_value * (1 - t.done) - t.value
    (delta + gamma * gae_lambda * (1 - t.done) * next_adv) :: rest

/-- Value of the next transition, or the bootstrap value for the empty
trajectory: the second carry component reached by the reverse scan. -/
def head_value (last_val : ℚ) : List Transition → ℚ
  | [] => last_val
  | t :: _ => t.value

theorem scanRev_gae_eq_spec (gamma gae_lambda last_val : ℚ) (traj : List Transition) :
    scanRev (get_advantages gamma gae_lambda) (0, last_val) traj =
      (((gae_spec gamma gae_lambda last_val traj).headD 0, head_value last_val traj),
        gae_spec gamma gae_lambda last_val traj) := by
  induction traj with
  | nil => rfl
  | cons t ts ih =>
    simp only [scanRev, ih]
    cases ts <;> simp [get_advantages, gae_spec, head_value]

/-- C1: for every trajectory and bootstrap value, `calculate_gae` returns
exactly the advantages of the spec's backward recursion (advantage_H = 0,
next_value_(H-1) = last_val, next_value_t = value_(t+1) otherwise) and
targets satisfying target_t = advantage_t + value_t. -/
theorem calculate_gae_correct (gamma gae_lambda last_val : ℚ) (traj : List Transition) :
    calculate_gae gamma gae_lambda traj last_val =
      (gae_spec gamma gae_lambda last_val traj,
        List.zipWith (fun a v => a + v) (gae_spec gamma gae_lambda last_val traj)
          (traj.map (·.value))) := by
  simp [calculate_gae, scanRev_gae_eq_spec]

/-- C8: on the concrete scenario (horizon 4, gamma = 0.99, lambda = 0.95,
rewards [1,0,0,1], values [0.5,0.5,0.5,0.5], dones [0,0,0,1], bootstrap
value 0.5) the Advantage Estimator returns advantage_3 = 0.5 exactly (the
done flag zeroes the bootstrap term) and the hand-computed values of the
backward recursion at t = 0, 1, 2, with target_t = advantage_t + value_t. -/
theorem calculate_gae_scenario :
    calculate_gae (99/100) (19/20)
      [⟨0, 0, 1/2, 1, 0, []⟩, ⟨0, 0, 1/2, 0, 0, []⟩,
       ⟨0, 0, 1/2, 0, 0, []⟩, ⟨1, 0, 1/2, 1, 0, []⟩] (1/2) =
      ([22429277621/16000000000, 3460541/8000000, 1861/4000, 1/2],
       [30429277621/16000000000, 7460541/8000000, 3861/4000, 1]) := by
  norm_num [calculate_gae, scanRev, get_advantages]

/-! ### Batch Adapter

An agent-keyed dictionary is modelled as an association list
`List (α × List (List ℚ))` whose values are 2-d arrays (lists of rows);
Python dict lookup returns the binding written last, hence the lookup in
the reversed list.  A missing key (`KeyError`), a `jnp.stack` over
values of differing shapes, and a `reshape` whose target size does not
divide the array size are the fatal failures, modelled as `none`. -/

/-- Python dict lookup `x[a]`: the most recently written binding for `a`,
or `none` (a `KeyError`) when `a` is not a key of `x`. -/
def dictGet [DecidableEq α] (x : List (α × List (List ℚ))) (a : α) :
    Option (List (List ℚ)) :=
  x.reverse.lookup a

/-- The list comprehension `[x[a] for a in agent_list]`, propagating a
`KeyError` on any missing key. -/
def lookupAll [DecidableEq α] (x : List (α × List (List ℚ))) :
    List α → Option (List (List (List ℚ)))
  | [] => some []
  | a :: rest =>
    match dictGet x a, lookupAll x rest with
    | some v, some vs => some (v :: vs)
    | _, _ => none

/-- Rectangularity of a 2-d array: every row has the length of the first
row (jnp arrays are rectangular by construction; ragged lists model no
array). -/
def isRect (v : List (List ℚ)) : Bool :=
  match v with
  | [] => true
  | r :: rs => rs.all (fun s => s.length == r.length)

/-- Shape of a 2-d array value: (number of rows, row length). -/
def shape2 (v : List (List ℚ)) : ℕ × ℕ :=
  (v.length, (v.headD []).length)

/-- Precondition of `jnp.stack`: all stacked values share one shape. -/
def stack_ok (vals : List (List (List ℚ))) : Bool :=
  vals.all (fun v => isRect v && (shape2 v == shape2 (vals.headD [])))

/-- Worker for `splitRows`, structurally recursive on a fuel bound on the
number of peeling steps so that it evaluates inside the kernel. -/
def splitRowsFuel (n : ℕ) : ℕ → List α → List (List α)
  | _, [] => []
  | 0, _ :: _ => []
  | fuel + 1, x :: xs =>
    if n = 0 then [] else (x :: xs).take n :: splitRowsFuel n fuel ((x :: xs).drop n)

/-- Row-major split of a flat list into rows of length n (the row
grouping performed by a `reshape` that fixes the leading dimensions): a
zero row length of a nonempty list yields no rows. -/
def splitRows (n : ℕ) (xs : List α) : List (List α) :=
  splitRowsFuel n xs.length xs

theorem splitRowsFuel_congr (n : ℕ) :
    ∀ (fuel : ℕ) (fuel' : ℕ) (xs : List α), xs.length ≤ fuel → xs.length ≤ fuel' →
      splitRowsFuel n fuel xs = splitRowsFuel n fuel' xs
  | fuel, fuel', [], _, _ => by cases fuel <;> cases fuel' <;> rfl
  | 0, _, x :: xs, h, _ => by simp at h
  | _ + 1, 0, x :: xs, _, h' => by simp at h'
  | f + 1, f' + 1, x :: xs, h, h' => by
    by_cases hn : n = 0
    · simp [splitRowsFuel, hn]
    · have hlen : ((x :: xs).drop n).length ≤ f := by
        simp only [List.length_drop, List.length_cons]
        simp only [List.length_cons] at h
        omega
      have hlen' : ((x :: xs).drop n).length ≤ f' := by
        simp only [List.length_drop, List.length_cons]
        simp only [List.length_cons] at h'
        omega
      simp only [splitRowsFuel, if_neg hn]
      rw [splitRowsFuel_congr n f f' ((x :: xs).drop n) hlen hlen']

@[simp] theorem splitRows_nil (n : ℕ) : splitRows n ([] : List α) = [] := rfl

@[simp] theorem splitRows_zero (xs : List α) : splitRows 0 xs = [] := by
  cases xs with
  | nil => rfl
  | cons x xs => simp [splitRows, splitRowsFuel]

theorem splitRows_cons (n : ℕ) (hn : n ≠ 0) (x : α) (xs : List α) :
    splitRows n (x :: xs) =
      (x :: xs).take n :: splitRows n ((x :: xs).drop n) := by
  show splitRowsFuel n (xs.length + 1) (x :: xs) = _
  rw [splitRowsFuel, if_neg hn]
  rw [splitRowsFuel_congr n xs.length ((x :: xs).drop n).length ((x :: xs).drop n)
    (by simp; omega) (le_refl _)]
  rfl

/-- The Batch Adapter `batchify`: stacks `[x[a] for a in agent_list]`
(`KeyError` on a missing key, shape check from `jnp.stack`) and reshapes
the stack to `(num_actors, -1)` (failing when `num_actors` does not
divide the total size). -/
def batchify [DecidableEq α] (x : List (α × List (List ℚ))) (agent_list : List α)
    (num_actors : ℕ) : Option (List (List ℚ)) :=
  match lookupAll x agent_list with
  | none => none
  | some vals =>
    if stack_ok vals then
      let flat := (vals.map List.flatten).flatten
      if num_actors ≠ 0 ∧ num_actors ∣ flat.length then
        some (splitRows (flat.length / num_actors) flat)
      else none
    else none

/-- The dict comprehension of `unbatchify`,
`{a: x[i] for i, a in enumerate(agent_list)}`: an out-of-range index is
an `IndexError`, modelled as `none`. -/
def buildDict : List α → ℕ → List (List (List ℚ)) →
    Option (List (α × List (List ℚ)))
  | [], _, _ => some []
  | a :: rest, i, by_agent =>
    match by_agent[i]?, buildDict rest (i + 1) by_agent with
    | some v, some d => some ((a, v) :: d)
    | _, _ => none

/-- The Batch Adapter `unbatchify`: reshapes the flat array to
`(num_actors, num_envs, -1)` (the call sites pass the number of agents
for `num_actors`) and splits it by leading index over `agent_list`. -/
def unbatchify (x : List (List ℚ)) (agent_list : List α)
    (num_envs num_actors : ℕ) : Option (List (α × List (List ℚ))) :=
  let flat := x.flatten
  if num_actors * num_envs ≠ 0 ∧ num_actors * num_envs ∣ flat.length then
    let cols := flat.length / (num_actors * num_envs)
    let rows := splitRows cols flat
    let by_agent := splitRows num_envs rows
    buildDict agent_list 0 by_agent
  else none

/-! ### Lemmas about row splitting and dict lookup -/

theorem flatten_splitRows (n : ℕ) (hn : 0 < n) :
    ∀ xs : List α, (splitRows n xs).flatten = xs
  | [] => by simp
  | x :: xs => by
    rw [splitRows_cons n hn.ne']
    rw [List.flatten_cons, flatten_splitRows n hn ((x :: xs).drop n),
      List.take_append_drop]
termination_by xs => xs.length
decreasing_by simp [List.length_drop]; omega

theorem splitRows_flatten (n : ℕ) (hn : 0 < n) :
    ∀ L : List (List α), (∀ r ∈ L, r.length = n) → splitRows n L.flatten = L
  | [], _ => by simp
  | r :: L, h => by
    have hr : r.length = n := h r (List.mem_cons_self _ _)
    have ih := splitRows_flatten n hn L (fun s hs => h s (List.mem_cons_of_mem _ hs))
    cases r with
    | nil => rw [← hr] at hn; exact absurd hn (lt_irrefl 0)
    | cons a as =>
      show splitRows n ((a :: as) ++ L.flatten) = (a :: as) :: L
      rw [List.cons_append, splitRows_cons n hn.ne', ← List.cons_append, ← hr,
        List.take_left, List.drop_left, hr, ih]

theorem length_splitRows (n : ℕ) (hn : 0 < n) :
    ∀ xs : List α, n ∣ xs.length → (splitRows n xs).length = xs.length / n
  | [], _ => by simp
  | x :: xs, hd => by
    obtain ⟨k, hk⟩ := hd
    have hk1 : 1 ≤ k := by
      rcases Nat.eq_zero_or_pos k with h0 | h1
      · simp [h0] at hk
      · exact h1
    have hdrop : ((x :: xs).drop n).length = n * (k - 1) := by
      simp only [List.length_drop, hk]
      cases k with
      | zero => omega
      | succ k' => simp [Nat.mul_succ]
    have ih := length_splitRows n hn ((x :: xs).drop n) ⟨k - 1, hdrop⟩
    rw [splitRows_cons n hn.ne', List.length_cons, ih, hdrop, hk,
      Nat.mul_div_cancel_left _ hn, Nat.mul_div_cancel_left _ hn]
    omega
termination_by xs => xs.length
decreasing_by simp [List.length_drop]; omega

theorem length_of_mem_splitRows (n : ℕ) (hn : 0 < n) :
    ∀ xs : List α, n ∣ xs.length → ∀ c ∈ splitRows n xs, c.length = n
  | [], _ => by simp
  | x :: xs, hd => by
    obtain ⟨k, hk⟩ := hd
    have hk1 : 1 ≤ k := by
      rcases Nat.eq_zero_or_pos k with h0 | h1
      · simp [h0] at hk
      · exact h1
    have hdrop : ((x :: xs).drop n).length = n * (k - 1) := by
      simp only [List.length_drop, hk]
      cases k with
      | zero => omega
      | succ k' => simp [Nat.mul_succ]
    have ih := length_of_mem_splitRows n hn ((x :: xs).drop n) ⟨k - 1, hdrop⟩
    intro c hc
    rw [splitRows_cons n hn.ne'] at hc
    rcases List.mem_cons.mp hc with hc | hc
    · subst hc
      rw [List.length_take, hk]
      exact Nat.min_eq_left (Nat.le_mul_of_pos_right n hk1)
    · exact ih c hc
termination_by xs => xs.length
decreasing_by simp [List.length_drop]; omega

theorem mem_of_mem_splitRows (n : ℕ) :
    ∀ xs : List α, ∀ c ∈ splitRows n xs, ∀ r ∈ c, r ∈ xs
  | [] => by simp
  | x :: xs => by
    intro c hc r hr
    by_cases hn : n = 0
    · rw [hn, splitRows_zero] at hc
      simp at hc
    · rw [splitRows_cons n hn] at hc
      rcases List.mem_cons.mp hc with hc | hc
      · subst hc
        exact List.mem_of_mem_take hr
      · exact List.mem_of_mem_drop
          (mem_of_mem_splitRows n ((x :: xs).drop n) c hc r hr)
termination_by xs => xs.length
decreasing_by simp [List.length_drop]; omega

theorem flatten_length_uniform (n : ℕ) :
    ∀ L : List (List α), (∀ r ∈ L, r.length = n) → L.flatten.length = L.length * n
  | [], _ => by simp
  | r :: L, h => by
    have hr : r.length = n := h r (List.mem_cons_self _ _)
    have ih := flatten_length_uniform n L (fun s hs => h s (List.mem_cons_of_mem _ hs))
    simp [List.flatten_cons, hr, ih, Nat.succ_mul, Nat.add_comm]

theorem lookup_append [DecidableEq α] (a : α) (l₁ l₂ : List (α × β)) :
    (l₁ ++ l₂).lookup a = (l₁.lookup a).or (l₂.lookup a) := by
  induction l₁ with
  | nil => simp [List.lookup]
  | cons p l ih =>
    by_cases h : a = p.1
    · simp [List.lookup, h]
    · simpa [List.lookup, beq_false_of_ne h] using ih

theorem lookup_eq_none_of_not_mem [DecidableEq α] (a : α) (l : List (α × β))
    (h : a ∉ l.map Prod.fst) : l.lookup a = none := by
  induction l with
  | nil => rfl
  | cons p l ih =>
    simp only [List.map_cons, List.mem_cons, not_or] at h
    simp [List.lookup, beq_false_of_ne h.1, ih h.2]

theorem dictGet_head [DecidableEq α] (a : α) (v : List (List ℚ))
    (x : List (α × List (List ℚ))) (h : a ∉ x.map Prod.fst) :
    dictGet ((a, v) :: x) a = some v := by
  have hrev : a ∉ x.reverse.map Prod.fst := by
    rw [List.map_reverse, List.mem_reverse]
    exact h
  simp [dictGet, lookup_append, lookup_eq_none_of_not_mem a _ hrev, List.lookup]

theorem dictGet_cons_ne [DecidableEq α] (a b : α) (v : List (List ℚ))
    (x : List (α × List (List ℚ))) (h : a ≠ b) :
    dictGet ((b, v) :: x) a = dictGet x a := by
  simp [dictGet, lookup_append, List.lookup, beq_false_of_ne h]

theorem lookupAll_congr [DecidableEq α] (x x' : List (α × List (List ℚ))) :
    ∀ as : List α, (∀ a ∈ as, dictGet x a = dictGet x' a) →
      lookupAll x as = lookupAll x' as
  | [], _ => rfl
  | a :: as, h => by
    have ih := lookupAll_congr x x' as (fun b hb => h b (List.mem_cons_of_mem _ hb))
    simp [lookupAll, h a (List.mem_cons_self _ _), ih]

theorem lookupAll_self [DecidableEq α] :
    ∀ x : List (α × List (List ℚ)), (x.map Prod.fst).Nodup →
      lookupAll x (x.map Prod.fst) = some (x.map Prod.snd)
  | [], _ => rfl
  | (a, v) :: x, h => by
    rw [List.map_cons] at h
    have hnot : a ∉ x.map Prod.fst := (List.nodup_cons.mp h).1
    have htail : (x.map Prod.fst).Nodup := (List.nodup_cons.mp h).2
    have hcongr : ∀ b ∈ x.map Prod.fst, dictGet ((a, v) :: x) b = dictGet x b := by
      intro b hb
      exact dictGet_cons_ne b a v x (fun hba => hnot (hba ▸ hb))
    rw [List.map_cons, List.map_cons]
    show lookupAll ((a, v) :: x) (a :: x.map Prod.fst) = _
    simp only [lookupAll, dictGet_head a v x hnot,
      lookupAll_congr _ x _ hcongr, lookupAll_self x htail]

theorem buildDict_eq_zip :
    ∀ (ks : List α) (i : ℕ) (vs : List (List (List ℚ))),
      i + ks.length ≤ vs.length →
      buildDict ks i vs = some (ks.zip (vs.drop i))
  | [], _, _, _ => by simp [buildDict]
  | a :: ks, i, vs, h => by
    have hi : i < vs.length := by simp at h; omega
    have ih := buildDict_eq_zip ks (i + 1) vs (by simp at h ⊢; omega)
    rw [buildDict, List.getElem?_eq_getElem hi, ih,
      List.drop_eq_getElem_cons hi, List.zip_cons_cons]

theorem zip_map_fst_snd (l : List (α × β)) :
    (l.map Prod.fst).zip (l.map Prod.snd) = l := by
  induction l with
  | nil => rfl
  | cons a l ih => simp [ih]

theorem isRect_of_uniform (F : ℕ) (v : List (List ℚ)) (h : ∀ r ∈ v, r.length = F) :
    isRect v = true := by
  cases v with
  | nil => rfl
  | cons r rs =>
    simp only [isRect, List.all_eq_true]
    intro s hs
    rw [h s (List.mem_cons_of_mem _ hs), h r (List.mem_cons_self _ _)]
    simp

theorem shape2_of_uniform (E F : ℕ) (hE : 0 < E) (v : List (List ℚ))
    (hlen : v.length = E) (h : ∀ r ∈ v, r.length = F) : shape2 v = (E, F) := by
  cases v with
  | nil => simp at hlen; omega
  | cons r rs => simp [shape2, ← hlen, h r (List.mem_cons_self _ _)]

theorem stack_ok_uniform (E F : ℕ) (hE : 0 < E) (vals : List (List (List ℚ)))
    (hne : vals ≠ [])
    (h : ∀ v ∈ vals, v.length = E ∧ ∀ r ∈ v, r.length = F) :
    stack_ok vals = true := by
  have hhead : shape2 (vals.headD []) = (E, F) := by
    cases vals with
    | nil => exact absurd rfl hne
    | cons v vs =>
      exact shape2_of_uniform E F hE v (h v (List.mem_cons_self _ _)).1
        (h v (List.mem_cons_self _ _)).2
  simp only [stack_ok, List.all_eq_true]
  intro v hv
  rw [Bool.and_eq_true]
  refine ⟨isRect_of_uniform F v (h v hv).2, ?_⟩
  rw [shape2_of_uniform E F hE v (h v hv).1 (h v hv).2, hhead]
  simp

theorem batchify_of_uniform [DecidableEq α] (agent_list : List α)
    (num_envs feature_dim : ℕ) (hE : 0 < num_envs) (hF : 0 < feature_dim)
    (hnd : agent_list.Nodup) (hne : agent_list ≠ [])
    (x : List (α × List (List ℚ))) (hkeys : x.map Prod.fst = agent_list)
    (hvals : ∀ p ∈ x, (p.2).length = num_envs ∧ ∀ r ∈ p.2, r.length = feature_dim) :
    batchify x agent_list (agent_list.length * num_envs) =
      some (x.map Prod.snd).flatten := by
  have hxlen : x.length = agent_list.length := by rw [← hkeys, List.length_map]
  have hxne : x ≠ [] := by
    intro h0
    rw [h0] at hkeys
    exact hne hkeys.symm
  have hvlen : ∀ v ∈ x.map Prod.snd, v.length = num_envs := by
    intro v hv
    obtain ⟨p, hp, rfl⟩ := List.mem_map.mp hv
    exact (hvals p hp).1
  have hvrows : ∀ v ∈ x.map Prod.snd, ∀ r ∈ v, r.length = feature_dim := by
    intro v hv
    obtain ⟨p, hp, rfl⟩ := List.mem_map.mp hv
    exact (hvals p hp).2
  have hvalsne : x.map Prod.snd ≠ [] := by
    intro h0
    exact hxne (List.map_eq_nil_iff.mp h0)
  have h1 : lookupAll x agent_list = some (x.map Prod.snd) := by
    rw [← hkeys]
    exact lookupAll_self x (hkeys ▸ hnd)
  have hstack : stack_ok (x.map Prod.snd) = true :=
    stack_ok_uniform num_envs feature_dim hE _ hvalsne
      (fun v hv => ⟨hvlen v hv, hvrows v hv⟩)
  have hrowsflat : ∀ r ∈ (x.map Prod.snd).flatten, r.length = feature_dim := by
    intro r hr
    obtain ⟨v, hv, hrv⟩ := List.mem_flatten.mp hr
    exact hvrows v hv r hrv
  have hlen1 : (x.map Prod.snd).flatten.length = agent_list.length * num_envs := by
    rw [flatten_length_uniform num_envs _ hvlen, List.length_map, hxlen]
  have hlen2 : ((x.map Prod.snd).map List.flatten).flatten.length
      = agent_list.length * num_envs * feature_dim := by
    rw [← List.flatten_flatten, flatten_length_uniform feature_dim _ hrowsflat, hlen1]
  have hAne : agent_list.length * num_envs ≠ 0 :=
    Nat.mul_ne_zero (fun h0 => hne (List.eq_nil_of_length_eq_zero h0)) hE.ne'
  have hguard : agent_list.length * num_envs ≠ 0 ∧
      agent_list.length * num_envs ∣ ((x.map Prod.snd).map List.flatten).flatten.length := by
    refine ⟨hAne, ?_⟩
    rw [hlen2]
    exact dvd_mul_right _ _
  have hdiv : ((x.map Prod.snd).map List.flatten).flatten.length /
      (agent_list.length * num_envs) = feature_dim := by
    rw [hlen2, Nat.mul_div_cancel_left _ (Nat.pos_of_ne_zero hAne)]
  simp only [batchify, h1]
  rw [if_pos hstack, if_pos hguard, hdiv, ← List.flatten_flatten,
    splitRows_flatten feature_dim hF _ hrowsflat]

theorem unbatchify_of_uniform (agent_list : List α)
    (num_envs feature_dim : ℕ) (hE : 0 < num_envs) (hF : 0 < feature_dim)
    (hne : agent_list ≠ [])
    (vals : List (List (List ℚ))) (hlen : vals.length = agent_list.length)
    (hv : ∀ v ∈ vals, v.length = num_envs ∧ ∀ r ∈ v, r.length = feature_dim) :
    unbatchify vals.flatten agent_list num_envs agent_list.length =
      some (agent_list.zip vals) := by
  have hvlen : ∀ v ∈ vals, v.length = num_envs := fun v hvm => (hv v hvm).1
  have hrows1 : ∀ r ∈ vals.flatten, r.length = feature_dim := by
    intro r hr
    obtain ⟨v, hvm, hrv⟩ := List.mem_flatten.mp hr
    exact (hv v hvm).2 r hrv
  have hlen1 : vals.flatten.length = agent_list.length * num_envs := by
    rw [flatten_length_uniform num_envs vals hvlen, hlen]
  have hlen2 : vals.flatten.flatten.length
      = agent_list.length * num_envs * feature_dim := by
    rw [flatten_length_uniform feature_dim _ hrows1, hlen1]
  have hAne : agent_list.length * num_envs ≠ 0 :=
    Nat.mul_ne_zero (fun h0 => hne (List.eq_nil_of_length_eq_zero h0)) hE.ne'
  have hguard : agent_list.length * num_envs ≠ 0 ∧
      agent_list.length * num_envs ∣ vals.flatten.flatten.length := by
    refine ⟨hAne, ?_⟩
    rw [hlen2]
    exact dvd_mul_right _ _
  have hdiv : vals.flatten.flatten.length / (agent_list.length * num_envs)
      = feature_dim := by
    rw [hlen2, Nat.mul_div_cancel_left _ (Nat.pos_of_ne_zero hAne)]
  simp only [unbatchify]
  rw [if_pos hguard, hdiv, splitRows_flatten feature_dim hF _ hrows1,
    splitRows_flatten num_envs hE vals hvlen,
    buildDict_eq_zip agent_list 0 vals (by rw [hlen]; omega), List.drop_zero]

/-- C2: the Batch Adapter round-trip law, both directions exactly.  For a
well-formed agent-keyed dictionary x (keys exactly agent_list, each value
of shape (num_envs, feature_dim)), unbatchifying the batchified dictionary
returns x; conversely, for a flat array y of shape
(agent_list.length * num_envs, feature_dim), batchifying the unbatchified
dictionary returns y.  num_actors = agent_list.length * num_envs, and the
fourth argument of unbatchify receives the number of agents, as at the
call sites. -/
theorem batchify_unbatchify_roundtrip [DecidableEq α]
    (agent_list : List α) (num_envs feature_dim : ℕ)
    (hnd : agent_list.Nodup) (hne : agent_list ≠ [])
    (hE : 0 < num_envs) (hF : 0 < feature_dim) :
    (∀ x : List (α × List (List ℚ)),
      x.map Prod.fst = agent_list →
      (∀ p ∈ x, (p.2).length = num_envs ∧ ∀ r ∈ p.2, r.length = feature_dim) →
      (batchify x agent_list (agent_list.length * num_envs)).bind
        (fun y => unbatchify y agent_list num_envs agent_list.length) = some x) ∧
    (∀ y : List (List ℚ),
      y.length = agent_list.length * num_envs →
      (∀ r ∈ y, r.length = feature_dim) →
      (unbatchify y agent_list num_envs agent_list.length).bind
        (fun d => batchify d agent_list (agent_list.length * num_envs)) = some y) := by
  constructor
  · intro x hkeys hvals
    rw [batchify_of_uniform agent_list num_envs feature_dim hE hF hnd hne x hkeys hvals,
      Option.some_bind]
    have hxlen : (x.map Prod.snd).length = agent_list.length := by
      rw [List.length_map, ← hkeys, List.length_map]
    rw [unbatchify_of_uniform agent_list num_envs feature_dim hE hF hne
      (x.map Prod.snd) hxlen
      (fun v hv => by
        obtain ⟨p, hp, rfl⟩ := List.mem_map.mp hv
        exact hvals p hp)]
    rw [← hkeys, zip_map_fst_snd]
  · intro y hylen hyrows
    have hEd : num_envs ∣ y.length := by
      rw [hylen]
      exact dvd_mul_left _ _
    have hB2len : (splitRows num_envs y).length = agent_list.length := by
      rw [length_splitRows num_envs hE y hEd, hylen, Nat.mul_div_cancel _ hE]
    have hB2 : ∀ v ∈ splitRows num_envs y,
        v.length = num_envs ∧ ∀ r ∈ v, r.length = feature_dim := by
      intro v hvmem
      exact ⟨length_of_mem_splitRows num_envs hE y hEd v hvmem,
        fun r hr => hyrows r (mem_of_mem_splitRows num_envs y v hvmem r hr)⟩
    have hyflat : (splitRows num_envs y).flatten = y := flatten_splitRows num_envs hE y
    conv_lhs => rw [← hyflat]
    rw [unbatchify_of_uniform agent_list num_envs feature_dim hE hF hne _ hB2len hB2,
      Option.some_bind]
    have hkeys2 : (agent_list.zip (splitRows num_envs y)).map Prod.fst = agent_list :=
      List.map_fst_zip _ _ (le_of_eq hB2len.symm)
    have hvals2 : ∀ p ∈ agent_list.zip (splitRows num_envs y),
        (p.2).length = num_envs ∧ ∀ r ∈ p.2, r.length = feature_dim := by
      intro p hp
      obtain ⟨a, v⟩ := p
      exact hB2 v (List.of_mem_zip hp).2
    rw [batchify_of_uniform agent_list num_envs feature_dim hE hF hnd hne _ hkeys2 hvals2,
      List.map_snd_zip _ _ (le_of_eq hB2len), hyflat]

theorem batchify_unbatchify_roundtrip_witness :
    (["agent_0", "agent_1"].Nodup ∧ ["agent_0", "agent_1"] ≠ [] ∧
      (0 : ℕ) < 1 ∧ (0 : ℕ) < 1) ∧
    (batchify [("agent_0", [[(1 : ℚ)]]), ("agent_1", [[2]])] ["agent_0", "agent_1"]
        (["agent_0", "agent_1"].length * 1)).bind
      (fun y => unbatchify y ["agent_0", "agent_1"] 1 ["agent_0", "agent_1"].length) =
      some [("agent_0", [[(1 : ℚ)]]), ("agent_1", [[2]])] ∧
    (unbatchify [[(3 : ℚ)], [4]] ["agent_0", "agent_1"] 1
        ["agent_0", "agent_1"].length).bind
      (fun d => batchify d ["agent_0", "agent_1"] (["agent_0", "agent_1"].length * 1)) =
      some [[(3 : ℚ)], [4]] := by
  refine ⟨⟨by decide, by decide, by decide, by decide⟩, ?_, ?_⟩
  · exact (batchify_unbatchify_roundtrip ["agent_0", "agent_1"] 1 1 (by decide)
      (by decide) (by decide) (by decide)).1
      [("agent_0", [[1]]), ("agent_1", [[2]])] (by decide) (by decide)
  · exact (batchify_unbatchify_roundtrip ["agent_0", "agent_1"] 1 1 (by decide)
      (by decide) (by decide) (by decide)).2 [[3], [4]] (by decide) (by decide)

theorem lookupAll_none [DecidableEq α] (x : List (α × List (List ℚ))) :
    ∀ as : List α, ∀ a ∈ as, dictGet x a = none → lookupAll x as = none
  | b :: rest, a, ha, hnone => by
    rcases List.mem_cons.mp ha with rfl | ha'
    · simp [lookupAll, hnone]
    · rw [lookupAll, lookupAll_none x rest a ha' hnone]
      cases dictGet x b <;> rfl

/-- C9 counterexample: a dictionary holding a key that is not in
agent_list does not make batchify fail — the extra binding is silently
ignored (the rollout even relies on this, batchifying the done dict that
carries the sentinel key), refuting the claim that any key-set mismatch
is fatal. -/
theorem batchify_extra_key_counterexample :
    batchify [("agent_0", [[(1 : ℚ)]]), ("extra", [[2]])] ["agent_0"] 1 =
      some [[1]] := by
  decide

/-- C9 (amended): batchify fails fatally exactly when the dictionary
lacks a key of agent_list (a KeyError); a dictionary key outside
agent_list is ignored and never causes a failure. -/
theorem batchify_key_mismatch [DecidableEq α] (x : List (α × List (List ℚ)))
    (agent_list : List α) (num_actors : ℕ) :
    ((∃ a ∈ agent_list, dictGet x a = none) →
      batchify x agent_list num_actors = none) ∧
    (∀ (b : α) (v : List (List ℚ)), b ∉ agent_list →
      batchify ((b, v) :: x) agent_list num_actors =
        batchify x agent_list num_actors) := by
  constructor
  · rintro ⟨a, ha, hnone⟩
    rw [batchify, lookupAll_none x agent_list a ha hnone]
  · intro b v hb
    rw [batchify, batchify, lookupAll_congr ((b, v) :: x) x agent_list
      (fun a ha => dictGet_cons_ne a b v x (fun hab => hb (hab ▸ ha)))]

theorem batchify_key_mismatch_witness :
    batchify ([] : List (String × List (List ℚ))) ["agent_0"] 1 = none ∧
    batchify [("other", [[(2 : ℚ)]])] ["agent_0"] 1 =
      batchify ([] : List (String × List (List ℚ))) ["agent_0"] 1 := by
  constructor
  · exact (batchify_key_mismatch [] ["agent_0"] 1).1 ⟨"agent_0", by simp, rfl⟩
  · exact (batchify_key_mismatch [] ["agent_0"] 1).2 "other" [[2]] (by simp)

/-! ### Loss function `_loss_fn` -/

/-- numpy / jnp clip of a value into an interval: min(max(x, lo), hi). -/
def clip (x lo hi : ℚ) : ℚ := min (max x lo) hi

/-- Mean of a jnp array, sum divided by length (0 on the empty array by
the rational convention of division by zero). -/
def mean (xs : List ℚ) : ℚ := xs.sum / xs.length

/-- Three-list pointwise zip, used to state the spec's value-loss formula
in one pass. -/
def zipWith3 (f : α → β → γ → δ) : List α → List β → List γ → List δ
  | a :: as, b :: bs, c :: cs => f a b c :: zipWith3 f as bs cs
  | _, _, _ => []

/-- Value-loss block of `_loss_fn`:
value_pred_clipped = old_value + (value - old_value).clip(-eps, eps),
value_losses = (value - targets)^2,
value_losses_clipped = (value_pred_clipped - targets)^2,
value_loss = 0.5 * maximum(value_losses, value_losses_clipped).mean(),
with value the re-evaluated critic output and old_value the value stored
in the trajectory (traj_batch.value). -/
def value_loss_fn (clip_eps : ℚ) (value old_value targets : List ℚ) : ℚ :=
  let value_pred_clipped :=
    List.zipWith (fun ov v => ov + clip (v - ov) (-clip_eps) clip_eps) old_value value
  let value_losses := List.zipWith (fun v t => (v - t) ^ 2) value targets
  let value_losses_clipped :=
    List.zipWith (fun vc t => (vc - t) ^ 2) value_pred_clipped targets
  (1 / 2) * mean (List.zipWith max value_losses value_losses_clipped)

/-- Modelled from the spec: value loss
0.5 * mean(max((value - target)^2, (clip(value, old_value - eps,
old_value + eps) - target)^2)), the spec side of the refinement theorem
for `value_loss_fn`. -/
def value_loss_spec (clip_eps : ℚ) (value old_value targets : List ℚ) : ℚ :=
  (1 / 2) * mean (zipWith3
    (fun v ov t => max ((v - t) ^ 2) ((clip v (ov - clip_eps) (ov + clip_eps) - t) ^ 2))
    value old_value targets)

theorem clip_shift (ov v e : ℚ) :
    ov + clip (v - ov) (-e) e = clip v (ov - e) (ov + e) := by
  simp only [clip]
  rw [← min_add_add_left, ← max_add_add_left]
  have h1 : ov + (v - ov) = v := by ring
  have h2 : ov + -e = ov - e := by ring
  rw [h1, h2]

theorem value_losses_fusion (e : ℚ) :
    ∀ value old_value targets : List ℚ,
      List.zipWith max (List.zipWith (fun v t => (v - t) ^ 2) value targets)
        (List.zipWith (fun vc t => (vc - t) ^ 2)
          (List.zipWith (fun ov v => ov + clip (v - ov) (-e) e) old_value value)
          targets)
      = zipWith3 (fun v ov t =>
          max ((v - t) ^ 2) ((clip v (ov - e) (ov + e) - t) ^ 2))
          value old_value targets
  | [], ov, t => by cases ov <;> cases t <;> rfl
  | v :: vs, [], t => by cases t <;> rfl
  | v :: vs, ov :: ovs, [] => rfl
  | v :: vs, ov :: ovs, t :: ts => by
    simp only [List.zipWith_cons_cons, zipWith3, clip_shift ov v e,
      value_losses_fusion e vs ovs ts]

/-- C5: for every minibatch, the value loss computed by `_loss_fn` equals
the spec's formula 0.5 * mean(max((value - target)^2,
(clip(value, old_value - eps, old_value + eps) - target)^2)); in
particular the code's expression old_value + clip(value - old_value,
-eps, eps) equals value clipped to [old_value - eps, old_value + eps]. -/
theorem value_loss_correct (clip_eps : ℚ) :
    (∀ value old_value targets : List ℚ,
      value_loss_fn clip_eps value old_value targets =
        value_loss_spec clip_eps value old_value targets) ∧
    (∀ old_value value : ℚ,
      old_value + clip (value - old_value) (-clip_eps) clip_eps =
        clip value (old_value - clip_eps) (old_value + clip_eps)) := by
  constructor
  · intro value old_value targets
    simp only [value_loss_fn, value_loss_spec, value_losses_fusion clip_eps]
  · intro ov v
    exact clip_shift ov v clip_eps

/-- Per-element actor-loss component of `_loss_fn`:
loss_actor1 = ratio * gae, loss_actor2 = clip(ratio, 1 - eps, 1 + eps) * gae,
loss_actor = -min(loss_actor1, loss_actor2), at one batch element (rt is
the probability ratio, gae the normalized advantage at that element). -/
def loss_actor_component (clip_eps rt gae : ℚ) : ℚ :=
  -(min (rt * gae) (clip rt (1 - clip_eps) (1 + clip_eps) * gae))

/-- C6 counterexample: with eps = 1/5, ratio = 6/5 (inside the clip
interval [1 - eps, 1 + eps]) and advantage 1, the actor-loss component
has absolute value 6/5 > 1 = |advantage|, refuting the claimed bound
|loss_actor_component| <= |advantage|. -/
theorem clipping_bound_counterexample :
    (1 - (1/5 : ℚ) ≤ 6/5 ∧ (6/5 : ℚ) ≤ 1 + 1/5) ∧
      ¬ |loss_actor_component (1/5) (6/5) 1| ≤ |(1 : ℚ)| := by
  norm_num [loss_actor_component, clip, min_def, max_def, abs_le]

/-- C6 (amended): when the ratio lies in the clip interval
[1 - eps, 1 + eps] (eps nonnegative), the per-element actor-loss
component is bounded by (1 + eps) * |advantage| — the factor 1 + eps is
tight at ratio = 1 + eps, so the bound |advantage| alone does not hold. -/
theorem clipping_bound_amended (clip_eps rt gae : ℚ)
    (heps : 0 ≤ clip_eps) (hlo : 1 - clip_eps ≤ rt) (hhi : rt ≤ 1 + clip_eps) :
    |loss_actor_component clip_eps rt gae| ≤ (1 + clip_eps) * |gae| := by
  have hclip : clip rt (1 - clip_eps) (1 + clip_eps) = rt := by
    rw [clip, max_eq_left hlo, min_eq_left hhi]
  rw [loss_actor_component, hclip, min_self, abs_neg, abs_mul]
  have hrt : |rt| ≤ 1 + clip_eps := abs_le.mpr ⟨by linarith, hhi⟩
  exact mul_le_mul_of_nonneg_right hrt (abs_nonneg gae)

theorem clipping_bound_amended_witness :
    (0 ≤ (1/5 : ℚ) ∧ 1 - (1/5 : ℚ) ≤ 1 ∧ (1 : ℚ) ≤ 1 + 1/5) ∧
      |loss_actor_component (1/5) 1 2| ≤ (1 + 1/5) * |(2 : ℚ)| :=
  ⟨by norm_num,
    clipping_bound_amended (1/5) 1 2 (by norm_num) (by norm_num) (by norm_num)⟩

/-! ### Policy Updater `_update_epoch` -/

/-- Configuration surface consumed by the training loop (the config dict
of `make_train`, with `NUM_ACTORS`, `NUM_UPDATES` and `MINIBATCH_SIZE`
already filled in). -/
structure Config where
  num_envs : ℕ
  num_steps : ℕ
  num_actors : ℕ
  num_minibatches : ℕ
  minibatch_size : ℕ
  update_epochs : ℕ
  num_updates : ℕ
  gamma : ℚ
  gae_lambda : ℚ
  clip_eps : ℚ
  vf_coef : ℚ
  ent_coef : ℚ
deriving DecidableEq

/-- One timestep of the collected trajectory in batched form: each field
is the jnp array over the actor axis recorded by `_env_step` (the stacked
Transition produced by the rollout scan, viewed per timestep). -/
structure TransitionB where
  done : List ℚ
  action : List ℤ
  value : List ℚ
  reward : List ℚ
  log_prob : List ℚ
  obs : List (List ℚ)
deriving DecidableEq

/-- The flattened batch handed to the minibatch loop: each field of
(traj_batch, advantages, targets) with the time and actor axes merged by
tree_map(lambda x: x.reshape((batch_size,) + x.shape[2:])). -/
structure FlatBatch where
  done : List ℚ
  action : List ℤ
  value : List ℚ
  reward : List ℚ
  log_prob : List ℚ
  obs : List (List ℚ)
  advantages : List ℚ
  targets : List ℚ
deriving DecidableEq

/-- jnp.take(x, permutation, axis=0): reindex the leading axis by the
permutation (getD with a default, irrelevant once the permutation indices
are in range). -/
def shuffle_batch (perm : List ℕ) (xs : List α) (d : α) : List α :=
  perm.map (fun i => xs.getD i d)

/-- jnp.reshape(x, [num_minibatches, -1] + rest): split the leading axis
into num_minibatches contiguous chunks. -/
def chunk_into (n : ℕ) (xs : List α) : List (List α) :=
  splitRows (xs.length / n) xs

/-- The tree_map reshape merging the time and actor axes of
(traj_batch, advantages, targets) into one flat batch. -/
def flatten_batch (traj : List TransitionB) (advantages targets : List (List ℚ)) :
    FlatBatch :=
  ⟨(traj.map (·.done)).flatten, (traj.map (·.action)).flatten,
    (traj.map (·.value)).flatten, (traj.map (·.reward)).flatten,
    (traj.map (·.log_prob)).flatten, (traj.map (·.obs)).flatten,
    advantages.flatten, targets.flatten⟩

/-- The tree_map applying jnp.take with one shared permutation to every
field of the flat batch — the lockstep shuffle. -/
def shuffle_flat (perm : List ℕ) (b : FlatBatch) : FlatBatch :=
  ⟨shuffle_batch perm b.done 0, shuffle_batch perm b.action 0,
    shuffle_batch perm b.value 0, shuffle_batch perm b.reward 0,
    shuffle_batch perm b.log_prob 0, shuffle_batch perm b.obs [],
    shuffle_batch perm b.advantages 0, shuffle_batch perm b.targets 0⟩

/-- The tree_map reshape into [num_minibatches, -1], read off as the list
of minibatches scanned by `_update_minbatch`. -/
def minibatches_of (n : ℕ) (b : FlatBatch) : List FlatBatch :=
  (List.range n).map (fun i =>
    ⟨(chunk_into n b.done).getD i [], (chunk_into n b.action).getD i [],
      (chunk_into n b.value).getD i [], (chunk_into n b.reward).getD i [],
      (chunk_into n b.log_prob).getD i [], (chunk_into n b.obs).getD i [],
      (chunk_into n b.advantages).getD i [], (chunk_into n b.targets).getD i []⟩)

/-- The carry of the epoch scan in `_update_step`:
(train_state, traj_batch, advantages, targets, rng). -/
structure UpdateState (P K : Type) where
  train_state : P
  traj_batch : List TransitionB
  advantages : List (List ℚ)
  targets : List (List ℚ)
  rng : K
deriving DecidableEq

/-- The epoch body `_update_epoch`: split the key, assert the batch
sizing (fatal on mismatch, before any gradient step), draw a permutation,
flatten, shuffle every field in lockstep, split into minibatches, and
fold the gradient step `_update_minbatch` (abstracted as grad_step, the
optimizer/network collaborator) sequentially over them.  The carried
traj_batch, advantages and targets are returned unchanged. -/
def update_epoch {P K : Type} (cfg : Config) (split : K → K × K)
    (rand_perm : K → ℕ → List ℕ) (grad_step : P → FlatBatch → P)
    (us : UpdateState P K) : Except String (UpdateState P K) :=
  let s := split us.rng
  let batch_size := cfg.minibatch_size * cfg.num_minibatches
  if batch_size = cfg.num_steps * cfg.num_actors then
    let permutation := rand_perm s.2 batch_size
    let batch := flatten_batch us.traj_batch us.advantages us.targets
    let shuffled_batch := shuffle_flat permutation batch
    let minibatches := minibatches_of cfg.num_minibatches shuffled_batch
    let train_state := minibatches.foldl grad_step us.train_state
    .ok ⟨train_state, us.traj_batch, us.advantages, us.targets, s.1⟩
  else
    .error "batch size must be equal to number of steps * number of actors"

instance {e a : Type} [DecidableEq e] [DecidableEq a] : DecidableEq (Except e a) :=
  fun x y =>
    match x, y with
    | .ok u, .ok v => decidable_of_iff (u = v) (by simp)
    | .error u, .error v => decidable_of_iff (u = v) (by simp)
    | .ok _, .error _ => isFalse (fun hc => Except.noConfusion hc)
    | .error _, .ok _ => isFalse (fun hc => Except.noConfusion hc)

/-- The scan of `_update_epoch` over UPDATE_EPOCHS epochs. -/
def update_epochs_run {P K : Type} (cfg : Config) (split : K → K × K)
    (rand_perm : K → ℕ → List ℕ) (grad_step : P → FlatBatch → P) :
    ℕ → UpdateState P K → Except String (UpdateState P K)
  | 0, us => .ok us
  | n + 1, us =>
    (update_epoch cfg split rand_perm grad_step us).bind
      (update_epochs_run cfg split rand_perm grad_step n)

/-- C3: whenever minibatch_size * num_minibatches differs from
num_steps * num_actors, the epoch body fails on its assert before drawing
the permutation or running any gradient step, so no parameter update
occurs on a mismatched batch. -/
theorem update_epoch_rejects_mismatch {P K : Type} (cfg : Config)
    (split : K → K × K) (rand_perm : K → ℕ → List ℕ)
    (grad_step : P → FlatBatch → P) (us : UpdateState P K)
    (h : cfg.minibatch_size * cfg.num_minibatches ≠ cfg.num_steps * cfg.num_actors) :
    update_epoch cfg split rand_perm grad_step us =
      .error "batch size must be equal to number of steps * number of actors" := by
  simp only [update_epoch, if_neg h]

theorem update_epoch_rejects_mismatch_witness :
    2 * 3 ≠ 4 * 2 ∧
    update_epoch (P := ℚ) (K := ℕ) ⟨1, 4, 2, 3, 2, 1, 1, 0, 0, 0, 0, 0⟩
        (fun k => (k + 1, k)) (fun _ n => List.range n) (fun p _ => p + 1)
        ⟨0, [], [], [], 0⟩ =
      .error "batch size must be equal to number of steps * number of actors" :=
  ⟨by decide,
    update_epoch_rejects_mismatch ⟨1, 4, 2, 3, 2, 1, 1, 0, 0, 0, 0, 0⟩
      (fun k => (k + 1, k)) (fun _ n => List.range n) (fun p _ => p + 1)
      ⟨0, [], [], [], 0⟩ (by decide)⟩

/-- C10: across any number of executions of the epoch body, the carried
trajectory batch, advantages and targets are returned unchanged — only
the parameter state and the pseudo-random key component of the carried
update state change from epoch to epoch. -/
theorem update_epochs_frame {P K : Type} (cfg : Config) (split : K → K × K)
    (rand_perm : K → ℕ → List ℕ) (grad_step : P → FlatBatch → P) :
    ∀ (n : ℕ) (us us' : UpdateState P K),
      update_epochs_run cfg split rand_perm grad_step n us = .ok us' →
      us'.traj_batch = us.traj_batch ∧ us'.advantages = us.advantages ∧
        us'.targets = us.targets := by
  intro n
  induction n with
  | zero =>
    intro us us' h
    cases h
    exact ⟨rfl, rfl, rfl⟩
  | succ n ih =>
    intro us us' h
    rw [update_epochs_run] at h
    by_cases hc : cfg.minibatch_size * cfg.num_minibatches =
        cfg.num_steps * cfg.num_actors
    · simp only [update_epoch, if_pos hc, Except.bind] at h
      have h2 := ih _ us' h
      exact h2
    · simp only [update_epoch, if_neg hc] at h
      cases h

theorem update_epochs_frame_witness :
    (update_epochs_run (P := ℕ) (K := ℕ) ⟨1, 1, 1, 1, 1, 2, 1, 0, 0, 0, 0, 0⟩
        (fun k => (k + 1, k)) (fun _ n => List.range n) (fun p _ => p + 1) 2
        ⟨0, [⟨[0], [0], [0], [0], [0], [[0]]⟩], [[0]], [[0]], 0⟩ =
      .ok ⟨2, [⟨[0], [0], [0], [0], [0], [[0]]⟩], [[0]], [[0]], 2⟩) ∧
    (([⟨[0], [0], [0], [0], [0], [[0]]⟩] : List TransitionB) =
        [⟨[0], [0], [0], [0], [0], [[0]]⟩] ∧
      [[(0 : ℚ)]] = [[(0 : ℚ)]] ∧ [[(0 : ℚ)]] = [[(0 : ℚ)]]) :=
  ⟨by decide,
    update_epochs_frame ⟨1, 1, 1, 1, 1, 2, 1, 0, 0, 0, 0, 0⟩
      (fun k => (k + 1, k)) (fun _ n => List.range n) (fun p _ => p + 1) 2
      ⟨0, [⟨[0], [0], [0], [0], [0], [[0]]⟩], [[0]], [[0]], 0⟩
      ⟨2, [⟨[0], [0], [0], [0], [0], [[0]]⟩], [[0]], [[0]], 2⟩ (by decide)⟩

theorem getD_range_map (xs : List α) (d : α) :
    (List.range xs.length).map (fun i => xs.getD i d) = xs := by
  induction xs with
  | nil => rfl
  | cons x xs ih =>
    rw [List.length_cons, List.range_succ_eq_map, List.map_cons, List.map_map]
    simp only [Function.comp_def, List.getD_cons_zero, List.getD_cons_succ]
    rw [ih]

theorem getD_zip (xs : List α) (ys : List β) (i : ℕ) (d : α) (e : β)
    (hx : i < xs.length) (hy : i < ys.length) :
    (xs.zip ys).getD i (d, e) = (xs.getD i d, ys.getD i e) := by
  have hz : i < (xs.zip ys).length := by
    rw [List.length_zip]
    omega
  rw [List.getD_eq_getElem _ _ hz, List.getD_eq_getElem _ _ hx,
    List.getD_eq_getElem _ _ hy, List.getElem_zip]

/-- C4: the shuffle-and-partition pipeline of `_update_epoch`.  For every
permutation of the flattened batch, (i) the contiguous minibatch chunks of
the shuffled batch cover every original element exactly once — their
concatenation is a permutation of the original batch — and (ii) the same
permutation applied to three parallel fields (trajectory, advantages,
targets) keeps element i of each field aligned with element i of the
others: shuffling the zipped triples equals zipping the three shuffles. -/
theorem minibatch_partition_lockstep (perm : List ℕ) (n : ℕ) (d : ℚ)
    (xs ys zs : List ℚ)
    (hperm : perm.Perm (List.range xs.length))
    (hdvd : n ∣ xs.length) (hn : 0 < n)
    (hy : ys.length = xs.length) (hz : zs.length = xs.length) :
    ((chunk_into n (shuffle_batch perm xs d)).flatten).Perm xs ∧
      shuffle_batch perm ((xs.zip ys).zip zs) ((d, d), d) =
        ((shuffle_batch perm xs d).zip (shuffle_batch perm ys d)).zip
          (shuffle_batch perm zs d) := by
  have hmem : ∀ i ∈ perm, i < xs.length := fun i hi =>
    List.mem_range.mp (hperm.mem_iff.mp hi)
  have hshuf : (shuffle_batch perm xs d).Perm xs := by
    have h := hperm.map (fun i => xs.getD i d)
    rwa [getD_range_map] at h
  constructor
  · by_cases hxs : xs = []
    · subst hxs
      have hpnil : perm = [] := by
        simp only [List.length_nil, List.range_zero] at hperm
        exact hperm.eq_nil
      rw [hpnil]
      simp [shuffle_batch, chunk_into]
    · have hlen0 : 0 < xs.length := List.length_pos.mpr hxs
      have hlenS : (shuffle_batch perm xs d).length = xs.length := by
        rw [shuffle_batch, List.length_map, hperm.length_eq, List.length_range]
      have hpos : 0 < (shuffle_batch perm xs d).length / n := by
        rw [hlenS]
        exact Nat.div_pos (Nat.le_of_dvd hlen0 hdvd) hn
      rw [chunk_into, flatten_splitRows _ hpos]
      exact hshuf
  · have h2 : ∀ i ∈ perm, ((xs.zip ys).zip zs).getD i ((d, d), d) =
        ((xs.getD i d, ys.getD i d), zs.getD i d) := by
      intro i hi
      have hx := hmem i hi
      rw [getD_zip _ _ i (d, d) d (by rw [List.length_zip]; omega) (by omega),
        getD_zip xs ys i d d hx (by omega)]
    simp only [shuffle_batch, List.zip_map']
    exact List.map_congr_left h2

theorem minibatch_partition_lockstep_witness :
    (([1, 0, 3, 2] : List ℕ).Perm (List.range ([(5 : ℚ), 6, 7, 8].length)) ∧
      2 ∣ [(5 : ℚ), 6, 7, 8].length ∧ (0 : ℕ) < 2 ∧
      [(10 : ℚ), 20, 30, 40].length = [(5 : ℚ), 6, 7, 8].length ∧
      [(100 : ℚ), 200, 300, 400].length = [(5 : ℚ), 6, 7, 8].length) ∧
    ((chunk_into 2 (shuffle_batch [1, 0, 3, 2] [(5 : ℚ), 6, 7, 8] 0)).flatten.Perm
        [(5 : ℚ), 6, 7, 8] ∧
      shuffle_batch [1, 0, 3, 2]
          (([(5 : ℚ), 6, 7, 8].zip [(10 : ℚ), 20, 30, 40]).zip
            [(100 : ℚ), 200, 300, 400]) ((0, 0), 0) =
        ((shuffle_batch [1, 0, 3, 2] [(5 : ℚ), 6, 7, 8] 0).zip
            (shuffle_batch [1, 0, 3, 2] [(10 : ℚ), 20, 30, 40] 0)).zip
          (shuffle_batch [1, 0, 3, 2] [(100 : ℚ), 200, 300, 400] 0)) :=
  ⟨⟨by decide, by decide, by decide, by decide, by decide⟩,
    minibatch_partition_lockstep [1, 0, 3, 2] 2 0 [5, 6, 7, 8] [10, 20, 30, 40]
      [100, 200, 300, 400] (by decide) (by decide) (by decide) (by decide) (by decide)⟩

/-! ### Training Orchestrator `train` -/

/-- Output of network.apply on a batched observation: the categorical
action distribution (as its sampling and log-probability functions) and
the critic value, one entry per actor slot. -/
structure NetOut (K : Type) where
  sample : K → List ℤ
  log_prob : List ℤ → List ℚ
  value : List ℚ

/-- The external collaborators of the training loop (§6 of the design):
pseudo-random key splitting, network init/apply, vectorized environment
reset/step, the optimizer gradient step on one minibatch
(`_update_minbatch` with `_loss_fn` and apply_gradients folded in), and
the permutation draw.  All are pure functions. -/
structure Collab (P S K : Type) where
  split : K → K × K
  split_many : K → ℕ → List K
  init_net : K → P
  apply_net : P → List (List ℚ) → NetOut K
  reset_env : List K → List (List ℚ) × S
  step_env : List K → S → List ℤ → List (List ℚ) × S × List ℚ × List ℚ
  grad_step : P → FlatBatch → P
  rand_perm : K → ℕ → List ℕ

/-- The carry threaded through rollout collection:
(train_state, env_state, last_obs, rng). -/
structure RunnerState (P S K : Type) where
  train_state : P
  env_state : S
  last_obs : List (List ℚ)
  rng : K
deriving DecidableEq

/-- One rollout step `_env_step`: split a key, evaluate the network on
the batched observation, sample the actions and record their log-probs,
split a fresh stepping key per parallel environment, advance the
vectorized environment, and record the Transition combining the pre-step
value estimate and observation with the resulting reward/done. -/
def env_step {P S K : Type} (cfg : Config) (c : Collab P S K)
    (rs : RunnerState P S K) : RunnerState P S K × TransitionB :=
  let s1 := c.split rs.rng
  let out := c.apply_net rs.train_state rs.last_obs
  let action := out.sample s1.2
  let log_prob := out.log_prob action
  let s2 := c.split s1.1
  let rng_step := c.split_many s2.2 cfg.num_envs
  let step := c.step_env rng_step rs.env_state action
  (⟨rs.train_state, step.2.1, step.1, s2.1⟩,
    ⟨step.2.2.2, action, out.value, step.2.2.1, log_prob, rs.last_obs⟩)

/-- jax.lax.scan of `_env_step` over the horizon NUM_STEPS. -/
def scan_steps {σ τ : Type} (f : σ → σ × τ) : ℕ → σ → σ × List τ
  | 0, s => (s, [])
  | n + 1, s =>
    let r := f s
    let rest := scan_steps f n r.1
    (rest.1, r.2 :: rest.2)

/-- Batched `_calculate_gae`: the scalar backward recursion applied to
each actor column of the trajectory (the jnp operations broadcast
elementwise over the actor axis), transposed back to (time, actor)
layout. -/
def calculate_gae_batched (gamma gae_lambda : ℚ) (traj : List TransitionB)
    (last_val : List ℚ) : List (List ℚ) × List (List ℚ) :=
  let cols := (List.range last_val.length).map (fun i =>
    calculate_gae gamma gae_lambda
      (traj.map (fun tr => ⟨tr.done.getD i 0, tr.action.getD i 0, tr.value.getD i 0,
        tr.reward.getD i 0, tr.log_prob.getD i 0, tr.obs.getD i []⟩))
      (last_val.getD i 0))
  ((cols.map Prod.fst).transpose, (cols.map Prod.snd).transpose)

/-- One `_update_step` iteration: collect the rollout for NUM_STEPS,
bootstrap-evaluate the value function on the final observation, estimate
advantages and targets, and run UPDATE_EPOCHS epochs of the Policy
Updater; returns the advanced runner state and the collected trajectory
(whose info stream is the metric of the source). -/
def update_step {P S K : Type} (cfg : Config) (c : Collab P S K)
    (rs : RunnerState P S K) :
    Except String (RunnerState P S K × List TransitionB) :=
  let roll := scan_steps (env_step cfg c) cfg.num_steps rs
  let rs1 := roll.1
  let traj_batch := roll.2
  let last_val := (c.apply_net rs1.train_state rs1.last_obs).value
  let gae := calculate_gae_batched cfg.gamma cfg.gae_lambda traj_batch last_val
  (update_epochs_run cfg c.split c.rand_perm c.grad_step cfg.update_epochs
      ⟨rs1.train_state, traj_batch, gae.1, gae.2, rs1.rng⟩).map
    (fun us => (⟨us.train_state, rs1.env_state, rs1.last_obs, us.rng⟩, traj_batch))

/-- The scan of `_update_step` over NUM_UPDATES iterations, collecting
the per-iteration trajectories. -/
def train_loop {P S K : Type} (cfg : Config) (c : Collab P S K) :
    ℕ → RunnerState P S K →
      Except String (RunnerState P S K × List (List TransitionB))
  | 0, rs => .ok (rs, [])
  | n + 1, rs =>
    (update_step cfg c rs).bind (fun r =>
      (train_loop cfg c n r.1).map (fun out => (out.1, r.2 :: out.2)))

/-- The Training Orchestrator `train`: initialize the network parameters
from a split key, reset the vectorized environments from per-environment
split keys, then scan `_update_step` for NUM_UPDATES iterations starting
from the initial RunnerState. -/
def train {P S K : Type} (cfg : Config) (c : Collab P S K) (rng : K) :
    Except String (RunnerState P S K × List (List TransitionB)) :=
  let s1 := c.split rng
  let network_params := c.init_net s1.2
  let s2 := c.split s1.1
  let reset_rng := c.split_many s2.2 cfg.num_envs
  let env0 := c.reset_env reset_rng
  let s3 := c.split s2.1
  train_loop cfg c cfg.num_updates ⟨network_params, env0.2, env0.1, s3.2⟩

/-- C7: determinism of the training function.  Two runs given identical
initial pseudo-random keys, identical configuration and identical (pure)
environment/policy/optimizer collaborators produce identical outputs:
the same trajectory stream and the same final runner state, hence
bit-identical parameter trajectories.  In the model every source of
randomness is an explicit pure function of the supplied keys and no
ambient state exists, so the whole run is a function of
(config, collaborators, initial key) alone. -/
theorem train_deterministic {P S K : Type} (cfg₁ cfg₂ : Config)
    (c₁ c₂ : Collab P S K) (k₁ k₂ : K)
    (hcfg : cfg₁ = cfg₂) (hc : c₁ = c₂) (hk : k₁ = k₂) :
    train cfg₁ c₁ k₁ = train cfg₂ c₂ k₂ := by
  rw [hcfg, hc, hk]

/-- Pure collaborator instantiation used to witness the determinism
theorem on a concrete run. -/
def trivial_collab : Collab ℕ Unit ℕ :=
  ⟨fun k => (k + 1, k),
    fun k n => (List.range n).map (fun i => k + i),
    fun k => k,
    fun _ obs => ⟨fun _ => obs.map (fun _ => 0), fun a => a.map (fun _ => 0),
      obs.map (fun _ => 0)⟩,
    fun _ => ([[0]], ()),
    fun _ s a => ([[0]], s, a.map (fun _ => 0), a.map (fun _ => 1)),
    fun p _ => p + 1,
    fun _ n => List.range n⟩

theorem train_deterministic_witness :
    (⟨1, 1, 1, 1, 1, 1, 1, 0, 0, 0, 0, 0⟩ : Config) =
        ⟨1, 1, 1, 1, 1, 1, 1, 0, 0, 0, 0, 0⟩ ∧
      trivial_collab = trivial_collab ∧ (0 : ℕ) = 0 ∧
      train ⟨1, 1, 1, 1, 1, 1, 1, 0, 0, 0, 0, 0⟩ trivial_collab 0 =
        train ⟨1, 1, 1, 1, 1, 1, 1, 0, 0, 0, 0, 0⟩ trivial_collab 0 :=
  ⟨rfl, rfl, rfl,
    train_deterministic ⟨1, 1, 1, 1, 1, 1, 1, 0, 0, 0, 0, 0⟩
      ⟨1, 1, 1, 1, 1, 1, 1, 0, 0, 0, 0, 0⟩ trivial_collab trivial_collab 0 0
      rfl rfl rfl⟩

end JaxMarl
